import Mathlib

/-!
Verification of the Sieve of Eratosthenes program (`sieve.c`, `sieve_openmp.c`).

The composite table `b8* IsComposite` is modelled as a function `ℕ → Bool`
(`true` = marked composite), zero-initialised as `fun x => false`, exactly as
`calloc` zero-fills the allocation.  The index type `sieve_num` is `uint32_t`
in the default build, so arithmetic on loop counters is modelled on `ℕ` with
an explicit `% 2^32` at the one place where overflow can actually occur: the
inner-loop increment `Composite += Number` (see `markLoopU32`).  For runs
where no counter can reach `2^32` a plain `ℕ` model of the same loops is used
(`markLoop`, `SieveAux`, ...); `markLoopU32_eq_markLoop` relates the two.
-/

namespace Sieve

/-- `MAX_U32 = UINT32_MAX`, the largest `sieve_num` value of the default
(non-`SIEVE_EXTENDED`) build; `MAX_SIEVE` is the same constant. -/
def MAX_SIEVE : ℕ := 4294967295

/-- Modulus of `uint32_t` arithmetic. -/
def U32MOD : ℕ := 4294967296

/-- One write `IsComposite[c] = true` of the marking loop body
(`sieve.c:166`). -/
def markCell (t : ℕ → Bool) (c : ℕ) : ℕ → Bool :=
  fun x => if x = c then true else t x

/-- The inner marking loop of `sieve.c:164-167`
(`for (Composite = ...; Composite <= MaxPrime; Composite += Number)`)
with the loop counter modelled on `ℕ` (valid as long as `Composite + Number`
never reaches `2^32`; the faithful `uint32_t` version is `markLoopU32`).
`N` is `MaxPrime`, `p` is `Number`, `c` is `Composite`.  The C loop does not
terminate for `p = 0`, which never occurs (`Number ≥ 2`); the `0 < p` guard
makes the recursion well founded without changing any reachable case.
This unbounded model coincides with the real `uint32_t` loop exactly when
no value of the chain can reach `2^32`, i.e. for `N + p < 2^32`
(`markLoopU32_eq_markLoop`); theorems that quantify into the wraparound
regime are stated on `markLoopU32`/`sieveU32`/`sieveOuterU32` instead. -/
def markLoop (N p c : ℕ) (t : ℕ → Bool) : ℕ → Bool :=
  if _h : 0 < p ∧ c ≤ N then
    markLoop N p (c + p) (markCell t c)
  else t
termination_by N + 1 - c
decreasing_by omega

/-- The outer candidate loop of `sieve.c:159-169` in its sequential reading:
`for (Number = 2; Number <= MaxPrimeSqrt; Number++) if (!IsComposite[Number])
{ inner loop from Number*Number }`.  This is the execution of the
`SIEVE_FAST` build, whose `omp parallel for` sits on the inner loop only:
the inner iterations write disjoint cells and read nothing, so the parallel
inner loop computes exactly `markLoop`.  `limit` is `MaxPrimeSqrt`. -/
def SieveAux (N limit p : ℕ) (t : ℕ → Bool) : ℕ → Bool :=
  if _h : p ≤ limit then
    SieveAux N limit (p + 1) (if t p = false then markLoop N p (p * p) t else t)
  else t
termination_by limit + 1 - p
decreasing_by omega

/-- Final table of the inner-parallel (`SIEVE_FAST`) build: candidates run
from `Number = 2`, the table starts zero-filled. -/
def sieveSeq (N limit : ℕ) : ℕ → Bool :=
  SieveAux N limit 2 (fun _ => false)

/-- The outer-parallel strategy of the default build
(`#pragma omp parallel for` on the candidate loop, `sieve.c:157`).  Worker
threads race: the read `!IsComposite[Number]` may observe a stale value of
the shared table.  Every write of every thread stores `true`, so writes
commute and the final table is the pointwise union of the marking loops of
exactly those candidates whose read observed `false`.  The observation made
for candidate `p` is abstracted as `sees p`; an execution is modelled by its
observation function.  A value `sees p = true` can only arise from an actual
write to cell `p`; in the overflow-free regime every write is to a multiple
`≥ q*q` of some processed candidate `q`, which forces `p` to be composite,
so theorems about that regime constrain `sees` by
`sees p = true → ¬ p.Prime`.  This justification is confined to the
overflow-free regime: wrapped chains write prime cells (candidate 7 writes
cell 3 at bound `2^32 - 3`, see the C1 theorem), so no such constraint is
assumed there; the wraparound regime is treated on the faithful
`sieveOuterU32` instead, and this unbounded model is related to it by
`sieveOuterU32_complete`. -/
def SieveOuterAux (N limit : ℕ) (sees : ℕ → Bool) (p : ℕ) (t : ℕ → Bool) :
    ℕ → Bool :=
  if _h : p ≤ limit then
    SieveOuterAux N limit sees (p + 1)
      (if sees p = false then markLoop N p (p * p) t else t)
  else t
termination_by limit + 1 - p
decreasing_by omega

/-- Final table of one racy execution (observation function `sees`) of the
outer-parallel default build. -/
def sieveOuterPar (N limit : ℕ) (sees : ℕ → Bool) : ℕ → Bool :=
  SieveOuterAux N limit sees 2 (fun _ => false)

/-- The sieve of `sieve_openmp.c:27-40`: same inner-parallel strategy, but
the outer loop runs all candidates `2 ≤ i ≤ max_prime` (no square-root
limit), arithmetic on `long` (no overflow for bounds accepted by `atoi`). -/
def sieveOpenmp (N : ℕ) : ℕ → Bool :=
  SieveAux N N 2 (fun _ => false)

/-- The inner marking loop of `sieve.c:164-167` with the `uint32_t`
arithmetic of `sieve_num` modelled faithfully: the increment
`Composite += Number` wraps modulo `2^32`.  Because the wrapped loop need
not terminate (see the C3 theorem), the model is fuel-indexed: `none` means
the loop has not finished within `fuel` iterations, so
`∀ fuel, ... = none` states non-termination and `... = some t` states that
the loop finished with table `t`. -/
def markLoopU32 : ℕ → ℕ → ℕ → ℕ → (ℕ → Bool) → Option (ℕ → Bool)
  | 0, _, _, _, _ => none
  | fuel + 1, N, p, c, t =>
    if c ≤ N then
      markLoopU32 fuel N p ((c + p) % U32MOD) (markCell t c)
    else some t

/-- The outer candidate loop of `sieve.c:159-169` (sequential reading, as in
the `SIEVE_FAST` build) on top of the faithful `uint32_t` inner loop
`markLoopU32`.  `Number * Number` is also reduced modulo `2^32`, as the
`uint32_t` multiplication is.  The result is `none` when some inner loop
fails to finish within `fuel` iterations. -/
def sieveU32 (fuel N limit p : ℕ) (t : ℕ → Bool) : Option (ℕ → Bool) :=
  if _h : p ≤ limit then
    if t p = false then
      match markLoopU32 fuel N p ((p * p) % U32MOD) t with
      | none => none
      | some t2 => sieveU32 fuel N limit (p + 1) t2
    else sieveU32 fuel N limit (p + 1) t
  else some t
termination_by limit + 1 - p
decreasing_by all_goals omega

/-- One racy execution of the outer-parallel default build on top of the
faithful `uint32_t` inner loop `markLoopU32`.  As in `SieveOuterAux`, the
value each candidate's primality read observed is abstracted as `sees`;
every executed inner loop only writes `true`, so the writes of the final
table commute and the fold order is irrelevant for it.  The region's join
barrier completes only when every thread's loops have finished, so the
execution produces a table exactly when every selected candidate's inner
loop terminates: a single diverging chain (`none`) means the program never
finishes and no table exists. -/
def sieveOuterU32 (fuel N limit : ℕ) (sees : ℕ → Bool) (p : ℕ)
    (t : ℕ → Bool) : Option (ℕ → Bool) :=
  if _h : p ≤ limit then
    if sees p = false then
      match markLoopU32 fuel N p ((p * p) % U32MOD) t with
      | none => none
      | some t2 => sieveOuterU32 fuel N limit sees (p + 1) t2
    else sieveOuterU32 fuel N limit sees (p + 1) t
  else some t
termination_by limit + 1 - p
decreasing_by all_goals omega

/-!  Output stage: `PrintPrimes`, `sieve.c:185-199`.  Standard output is
modelled as the `String` the function writes.  The position counter update
`PrimeInLine = (PrimeInLine + 1) % PrimesPerLine` divides by
`PrimesPerLine`; in C a zero divisor is undefined behaviour, modelled here
as the result `none`. -/

/-- Loop of `PrintPrimes` (`sieve.c:186-198`): `Number` runs from 2 to
`MaxPrime`; each unmarked index is printed followed by the separator, or by
a newline when it is the `PrimesPerLine`-th entry of its line; a final
newline is appended when the last line is partial. -/
def PrintPrimesAux (IsComposite : ℕ → Bool) (MaxPrime L : ℕ) (Separator : String)
    (Number PrimeInLine : ℕ) : Option String :=
  if _h : Number ≤ MaxPrime then
    if IsComposite Number = false then
      if L = 0 then none
      else
        let pil := (PrimeInLine + 1) % L
        let ls : String := if pil = 0 then "\n" else Separator
        Option.map (fun s => toString Number ++ ls ++ s)
          (PrintPrimesAux IsComposite MaxPrime L Separator (Number + 1) pil)
    else PrintPrimesAux IsComposite MaxPrime L Separator (Number + 1) PrimeInLine
  else some (if 0 < PrimeInLine then "\n" else "")
termination_by MaxPrime + 1 - Number
decreasing_by all_goals omega

/-- `PrintPrimes` (`sieve.c:185-199`): the full standard-output text of the
printing stage, `none` when the modulo-by-zero undefined behaviour is
reached. -/
def PrintPrimes (IsComposite : ℕ → Bool) (MaxPrime L : ℕ) (Separator : String) :
    Option String :=
  PrintPrimesAux IsComposite MaxPrime L Separator 2 0

/-- List-level rendering of the same loop: the text `PrintPrimes` produces
for a given list of numbers to print, starting at line position `pil`. -/
def renderAux (L : ℕ) (sep : String) : List ℕ → ℕ → String
  | [], pil => if 0 < pil then "\n" else ""
  | n :: ns, pil =>
    let pil2 := (pil + 1) % L
    (toString n ++ (if pil2 = 0 then "\n" else sep)) ++ renderAux L sep ns pil2

/-- Concatenation with `sep` between consecutive entries. -/
def sepJoin (sep : String) : List String → String
  | [] => ""
  | [a] => a
  | a :: b :: rest => a ++ sep ++ sepJoin sep (b :: rest)

/-- Plain concatenation of a list of strings. -/
def catAll : List String → String
  | [] => ""
  | a :: rest => a ++ catAll rest

/-- Recursion worker of `specRender`; `fuel` only makes the line-by-line
recursion structural, any `fuel ≥ nums.length` gives the same value. -/
def specRenderF (sep : String) (L : ℕ) : ℕ → List ℕ → String
  | _, [] => ""
  | 0, _ :: _ => ""
  | fuel + 1, n :: ns =>
    if 0 < L ∧ L ≤ (n :: ns).length then
      sepJoin sep (((n :: ns).take L).map toString) ++ "\n" ++
        specRenderF sep L fuel ((n :: ns).drop L)
    else catAll ((n :: ns).map (fun m => toString m ++ sep)) ++ "\n"

/-- Spec-side formatter (amended wording of C8): the numbers are emitted in
the given order, wrapped into lines of `L` entries; within a full line the
entries are separated by `sep` and the line is terminated by a newline; in a
trailing partial line every entry (including the last) is followed by `sep`,
and the line is terminated by a newline; no output at all when the list is
empty. -/
def specRender (L : ℕ) (sep : String) (nums : List ℕ) : String :=
  specRenderF sep L nums.length nums

/-- Indices in `[lo, lo + len)` whose table entry is still `false`: the
numbers the printing loop emits. -/
def emitted (t : ℕ → Bool) (lo len : ℕ) : List ℕ :=
  (List.range' lo len).filter (fun i => !(t i))

/-- The mathematically correct list of primes up to `N`, ascending. -/
def primesUpTo (N : ℕ) : List ℕ :=
  (List.range (N + 1)).filter (fun i => decide (Nat.Prime i))

/-!  Argument parsing: `ParseArguments`, `StringToUMax`, `atoi`
(`sieve.c:201-292`).  The program's own header pins the platform: it "is
intended to be compiled on Linux with gcc", i.e. against glibc.  glibc's
`strtoumax` with base 10 never sets `EINVAL`: a string without leading
digits converts to 0 and leaves `errno` untouched.  `errno` is modelled
explicitly and threaded through the parse, since the code reads it without
resetting it. -/

/-- `errno` value `ERANGE` (34 on Linux). -/
def ERANGE : ℕ := 34

/-- `errno` value `EINVAL` (22 on Linux). -/
def EINVAL : ℕ := 22

/-- Numeric value of a decimal digit character. -/
def digitVal (c : Char) : ℕ := c.toNat - 48

/-- Value of a list of decimal digits, most significant first. -/
def digitsToVal (cs : List Char) : ℕ :=
  cs.foldl (fun a c => 10 * a + digitVal c) 0

/-- glibc `strtoumax(Str, NULL, 10)`: the value of the maximal leading run
of decimal digits, 0 when there is none (`errno` untouched either way;
leading whitespace and signs are not modelled — no claim exercises them).
The real function caps at `UINTMAX_MAX` with `ERANGE`; for every use in
this program the caller `StringToUMax` clamps at `MAX_SIEVE < UINTMAX_MAX`
and sets `ERANGE` itself, so the observable result is identical and the cap
is left out of the model. -/
def strtoumax (s : String) : ℕ :=
  digitsToVal (s.data.takeWhile Char.isDigit)

/-- `StringToUMax` (`sieve.c:201-209`): convert and clamp to `MaxVal`,
setting `errno = ERANGE` on clamping; the incoming `errno` is preserved
otherwise. -/
def StringToUMax (s : String) (MaxVal errno : ℕ) : ℕ × ℕ :=
  let v := strtoumax s
  if MaxVal < v then (MaxVal, ERANGE) else (v, errno)

/-- glibc `atoi`: optional leading minus sign, then the leading digit run
(0 when there are no digits).  `int` overflow is not modelled; no claim
exercises it. -/
def atoi (s : String) : ℤ :=
  match s.data with
  | c :: cs =>
    if c = '-' then -(digitsToVal (cs.takeWhile Char.isDigit) : ℤ)
    else (digitsToVal (s.data.takeWhile Char.isDigit) : ℤ)
  | [] => 0

/-- The global input-argument variables of `sieve.c:104-108` with their
initialisers, gathered into one record.  `NumThreads` records the value
passed to `omp_set_num_threads` (no observable effect in this model). -/
structure Config where
  ShouldPrintPrimes : Bool := true
  ShouldPrintTime : Bool := false
  PrimesPerLine : ℕ := 10
  Separator : String := "\t"
  NumThreads : Option ℕ := none
deriving DecidableEq

/-- Result of `ParseArguments` together with everything it wrote to the
error stream (in order).  `ok` carries the parsed configuration and
`MaxPrime`; `fail` is `return false`; `crash` is the deliberate null-pointer
write `*((b8*)0) = 0` on `errno == EINVAL` (`sieve.c:273`), dead on glibc. -/
inductive ParseOut where
  | ok (cfg : Config) (MaxPrime : ℕ) (stderr : List String)
  | fail (stderr : List String)
  | crash (stderr : List String)
deriving DecidableEq

/-- Message of `sieve.c:288`. -/
def missingMaxMsg : String := "Missing MAX value at the end of command"

/-- Message of `sieve.c:233`. -/
def numThreadsMsg : String := "The number of threads must be greater or equal to 1"

/-- Message of `sieve.c:243`. -/
def lineOptionMsg : String := "-l option needs a positive integer value"

/-- Warning of `sieve.c:281-284`; the format string interpolates `Args[1]`
(the first command-line token) and the clamped maximum. -/
def clampWarnMsg (arg1 : String) : String :=
  arg1 ++ " is higher than we can handle, looking to a max of 4294967294 instead"

/-- Stands for glibc getopt's own unknown-option diagnostic on stderr
(`opterr` is left enabled; the code's `?` branch adds nothing). -/
def getoptUnknownMsg (t : String) : String := "invalid option " ++ t

/-- Stands for glibc getopt's missing-argument diagnostic on stderr (with
the optstring `"qtn:l:s:h"` getopt returns `?` for a missing argument and
prints this itself). -/
def getoptMissingArgMsg (t : String) : String :=
  "option requires an argument " ++ t

/-- Stands for the `ShowUsage` text (`sieve.c:33-55`); its exact wording is
irrelevant to every claim. -/
def usageText : String := "USAGE: sieve [OPTIONS] MAX"

/-- End of option processing (`sieve.c:271-291`): take `MAX` from the first
remaining token (`Args[optind]`), convert with clamping, crash on `EINVAL`,
clamp-and-warn on `ERANGE` or a converted value equal to `MAX_SIEVE`. -/
def finishMax (arg1 : String) (errno : ℕ) (cfg : Config) (errs : List String)
    (toks : List String) : ParseOut :=
  match toks with
  | [] => .fail (errs ++ [missingMaxMsg])
  | t :: _ =>
    let r := StringToUMax t MAX_SIEVE errno
    if r.2 = EINVAL then .crash errs
    else if r.2 = ERANGE ∨ r.1 = MAX_SIEVE then
      .ok cfg (MAX_SIEVE - 1) (errs ++ [clampWarnMsg arg1])
    else .ok cfg r.1 errs

/-- getopt's classification of a command-line token: `some (c, cs)` when
the token starts with `-` followed by at least one character (an option
character `c` and the remaining cluster `cs`), `none` for a non-option
token (including a bare `-`). -/
def optChar (t : String) : Option (Char × List Char) :=
  match t.data with
  | '-' :: c :: cs => some (c, cs)
  | _ => none

/-- The getopt loop of `ParseArguments` (`sieve.c:216-269`), for command
lines in canonical form: one option per token (`-q`, not `-qt`), option
values as separate tokens (`-n 4`, not `-n4`).  A token that does not start
with `-`, or is just `-`, ends option processing (POSIX ordering; the
code's usage text itself demands `MAX` last); `--` ends it explicitly.
`arg1` is `Args[1]`, used only in the clamp warning.  The `fuel` argument
only makes the recursion structural: every iteration of the C `while` loop
consumes at least one token, so with the entry value `fuel = toks.length`
(see `ParseArguments`) fuel can only run out with `toks = []`, where the
loop reports the missing `MAX`; the `fuel = 0`, `toks ≠ []` case is
unreachable. -/
def parseLoopF (arg1 : String) : ℕ → ℕ → Config → List String → List String →
    ParseOut
  | 0, _, _, errs, _ => .fail (errs ++ [missingMaxMsg])
  | fuel + 1, errno, cfg, errs, toks =>
    if toks = [] then .fail (errs ++ [missingMaxMsg])
    else
      let t := toks.headD ""
      let rest := toks.tail
      (optChar t).elim (finishMax arg1 errno cfg errs toks) (fun p =>
        let c := p.1
        let cs := p.2
        if c = 'q' ∧ cs = [] then
          parseLoopF arg1 fuel errno { cfg with ShouldPrintPrimes := false }
            errs rest
        else if c = 't' ∧ cs = [] then
          parseLoopF arg1 fuel errno { cfg with ShouldPrintTime := true }
            errs rest
        else if c = 'n' ∧ cs = [] then
          if rest = [] then .fail (errs ++ [getoptMissingArgMsg t])
          else if atoi (rest.headD "") < 1 then .fail (errs ++ [numThreadsMsg])
          else parseLoopF arg1 fuel errno
            { cfg with NumThreads := some (atoi (rest.headD "")).toNat }
            errs rest.tail
        else if c = 'l' ∧ cs = [] then
          if rest = [] then .fail (errs ++ [getoptMissingArgMsg t])
          else
            let r := StringToUMax (rest.headD "") MAX_SIEVE errno
            parseLoopF arg1 fuel r.2 { cfg with PrimesPerLine := r.1 }
              (if r.2 = ERANGE then errs ++ [lineOptionMsg] else errs) rest.tail
        else if c = 's' ∧ cs = [] then
          if rest = [] then .fail (errs ++ [getoptMissingArgMsg t])
          else parseLoopF arg1 fuel errno { cfg with Separator := rest.headD "" }
            errs rest.tail
        else if c = 'h' ∧ cs = [] then .fail errs
        else if c = '-' ∧ cs = [] then finishMax arg1 errno cfg errs rest
        else .fail (errs ++ [getoptUnknownMsg t]))

/-- `ParseArguments` (`sieve.c:211-292`) on the command-line tokens after
the program name, starting from the initial globals and `errno = 0`. -/
def ParseArguments (args : List String) : ParseOut :=
  parseLoopF (args.headD "") args.length 0 {} [] args

/-- Observable outcome of a whole run of `main`: exit code with the full
standard-output text and the error-stream messages; undefined behaviour
(`undef`: the modulo-by-zero in `PrintPrimes` or the null write of
`sieve.c:273`); or `running`: the sieve phase has not finished within the
fuel given to `sieveU32` — a run for which every fuel yields `running`
never terminates and never produces any output. -/
inductive MainOutcome where
  | exits (code : ℕ) (stdout : String) (stderr : List String)
  | undef
  | running
deriving DecidableEq

/-- The `-t` line `printf("Sieve took %.5f seconds.\n", ...)`
(`sieve.c:174`) — written with `printf`, hence to standard output.  The
elapsed-time rendering is a run-time value, kept abstract as `elapsed`. -/
def timingLine (elapsed : String) : String :=
  "Sieve took " ++ elapsed ++ " seconds.\n"

/-- The part of `main` after a successful parse (`sieve.c:121-182`): sieve
the table for the parsed bound with the faithful `uint32_t` loops
(`sieveU32`; `running` while the sieve has not finished within `fuel`),
then the optional timing line and the optional result printing.  `calloc`
is assumed to succeed (allocation failure depends on the machine, not the
input, and no claim settled here needs it).  The candidate limit of
`sieve.c:138` is modelled as `Nat.sqrt MaxPrime`, the value §4.1 of the
spec prescribes for it (the float computation itself is the subject of C4;
a larger real limit can only add candidates above `⌊√N⌋`, which are already
marked when reached or mark nothing new, cf. `sieveOpenmp`). -/
def mainSieveRun (MaxPrime : ℕ) (cfg : Config) (errs : List String)
    (elapsed : String) (fuel : ℕ) : MainOutcome :=
  match sieveU32 fuel MaxPrime (Nat.sqrt MaxPrime) 2 (fun _ => false) with
  | none => .running
  | some IsComposite =>
    let tOut := if cfg.ShouldPrintTime then timingLine elapsed else ""
    if cfg.ShouldPrintPrimes then
      match PrintPrimes IsComposite MaxPrime cfg.PrimesPerLine cfg.Separator with
      | none => .undef
      | some pOut => .exits 0 (tOut ++ pOut) errs
    else .exits 0 tOut errs

/-- `main` (`sieve.c:114-183`): parse, then the sieve-and-output phase
`mainSieveRun` on the parsed bound.  `EXIT_SUCCESS = 0`,
`EXIT_FAILURE = 1`. -/
def mainRun (args : List String) (elapsed : String) (fuel : ℕ) : MainOutcome :=
  match ParseArguments args with
  | .fail errs => .exits 1 "" (errs ++ [usageText])
  | .crash _ => .undef
  | .ok cfg MaxPrime errs => mainSieveRun MaxPrime cfg errs elapsed fuel

/-!  Characterisation of the marking loop and of the two sieve strategies. -/

theorem markCell_true_iff (t : ℕ → Bool) (c x : ℕ) :
    markCell t c x = true ↔ x = c ∨ t x = true := by
  unfold markCell
  by_cases h : x = c <;> simp [h]

theorem markLoop_true_iff_aux (N p : ℕ) (hp : 0 < p) :
    ∀ m c t x, N + 1 - c ≤ m →
      (markLoop N p c t x = true ↔
        t x = true ∨ (c ≤ x ∧ x ≤ N ∧ p ∣ (x - c))) := by
  intro m
  induction m with
  | zero =>
    intro c t x hm
    have hc : ¬ c ≤ N := by omega
    rw [markLoop, dif_neg (by omega)]
    constructor
    · exact Or.inl
    · rintro (h | ⟨h1, h2, _⟩)
      · exact h
      · omega
  | succ m ih =>
    intro c t x hm
    by_cases hc : c ≤ N
    · rw [markLoop, dif_pos ⟨hp, hc⟩]
      rw [ih (c + p) (markCell t c) x (by omega)]
      rw [markCell_true_iff]
      constructor
      · rintro ((hxc | ht) | ⟨h1, h2, h3⟩)
        · subst hxc
          exact Or.inr ⟨le_refl _, hc, by simp⟩
        · exact Or.inl ht
        · refine Or.inr ⟨by omega, h2, ?_⟩
          have : x - c = (x - (c + p)) + p := by omega
          rw [this]
          exact Nat.dvd_add h3 (dvd_refl p)
      · rintro (ht | ⟨h1, h2, h3⟩)
        · exact Or.inl (Or.inr ht)
        · by_cases hxc : x = c
          · exact Or.inl (Or.inl hxc)
          · have hlt : c < x := by omega
            have hpe : p ≤ x - c := Nat.le_of_dvd (by omega) h3
            refine Or.inr ⟨by omega, h2, ?_⟩
            have : x - (c + p) = (x - c) - p := by omega
            rw [this]
            exact Nat.dvd_sub' h3 (dvd_refl p)
    · rw [markLoop, dif_neg (fun h => hc h.2)]
      constructor
      · exact Or.inl
      · rintro (h | ⟨h1, h2, _⟩)
        · exact h
        · omega

/-- The inner marking loop sets exactly the chain `c, c + p, c + 2p, ...`
of indices `≤ N`, on top of what was already set. -/
theorem markLoop_true_iff (N p c : ℕ) (hp : 0 < p) (t : ℕ → Bool) (x : ℕ) :
    markLoop N p c t x = true ↔
      t x = true ∨ (c ≤ x ∧ x ≤ N ∧ p ∣ (x - c)) :=
  markLoop_true_iff_aux N p hp (N + 1 - c) c t x (le_refl _)

theorem markLoop_sq_true_iff (N p : ℕ) (hp : 0 < p) (t : ℕ → Bool) (x : ℕ) :
    markLoop N p (p * p) t x = true ↔
      t x = true ∨ (p * p ≤ x ∧ x ≤ N ∧ p ∣ x) := by
  rw [markLoop_true_iff N p (p * p) hp t x]
  constructor
  · rintro (h | ⟨h1, h2, h3⟩)
    · exact Or.inl h
    · refine Or.inr ⟨h1, h2, ?_⟩
      have hx : x = (x - p * p) + p * p := by omega
      calc p ∣ (x - p * p) + p * p :=
        Nat.dvd_add h3 (Dvd.intro p rfl)
      _ = x := hx.symm
  · rintro (h | ⟨h1, h2, h3⟩)
    · exact Or.inl h
    · refine Or.inr ⟨h1, h2, Nat.dvd_sub' h3 (Dvd.intro p rfl)⟩

theorem SieveAux_true_iff_aux (N limit : ℕ) :
    ∀ m p t, limit + 1 - p ≤ m → 2 ≤ p →
      (∀ y, t y = true ↔
        (y ≤ N ∧ ∃ q, Nat.Prime q ∧ q < p ∧ q ≤ limit ∧ q * q ≤ y ∧ q ∣ y)) →
      ∀ x, SieveAux N limit p t x = true ↔
        (x ≤ N ∧ ∃ q, Nat.Prime q ∧ q ≤ limit ∧ q * q ≤ x ∧ q ∣ x) := by
  intro m
  induction m with
  | zero =>
    intro p t hm h2 hinv x
    rw [SieveAux, dif_neg (by omega)]
    rw [hinv x]
    constructor
    · rintro ⟨hxN, q, hq, _, hql, hsq, hdvd⟩
      exact ⟨hxN, q, hq, hql, hsq, hdvd⟩
    · rintro ⟨hxN, q, hq, hql, hsq, hdvd⟩
      exact ⟨hxN, q, hq, by omega, hql, hsq, hdvd⟩
  | succ m ih =>
    intro p t hm h2 hinv x
    by_cases hpl : p ≤ limit
    · rw [SieveAux, dif_pos hpl]
      apply ih (p + 1) _ (by omega) (by omega)
      intro y
      by_cases htp : t p = false
      · rw [if_pos htp]
        rw [markLoop_sq_true_iff N p (by omega) t y]
        rw [hinv y]
        constructor
        · rintro (⟨hyN, q, hq, hqp, hql, hsq, hdvd⟩ | ⟨hsq, hyN, hdvd⟩)
          · exact ⟨hyN, q, hq, by omega, hql, hsq, hdvd⟩
          · by_cases hpp : Nat.Prime p
            · exact ⟨hyN, p, hpp, by omega, hpl, hsq, hdvd⟩
            · have hne1 : p ≠ 1 := by omega
              have hqprime : Nat.Prime p.minFac := Nat.minFac_prime hne1
              have hqle : p.minFac ≤ p := Nat.minFac_le (by omega)
              have hqne : p.minFac ≠ p := fun h =>
                hpp (Nat.prime_def_minFac.2 ⟨h2, h⟩)
              have hqlt : p.minFac < p := lt_of_le_of_ne hqle hqne
              refine ⟨hyN, p.minFac, hqprime, by omega, by omega, ?_, ?_⟩
              · calc p.minFac * p.minFac ≤ p * p :=
                  Nat.mul_le_mul hqle hqle
                _ ≤ y := hsq
              · exact dvd_trans (Nat.minFac_dvd p) hdvd
        · rintro ⟨hyN, q, hq, hqp1, hql, hsq, hdvd⟩
          by_cases hqp : q < p
          · exact Or.inl ⟨hyN, q, hq, hqp, hql, hsq, hdvd⟩
          · have hqeq : q = p := by omega
            subst hqeq
            exact Or.inr ⟨hsq, hyN, hdvd⟩
      · rw [if_neg htp]
        have htpt : t p = true := by
          cases h : t p
          · exact absurd h htp
          · rfl
        have hpcomp : ¬ Nat.Prime p := by
          rcases (hinv p).1 htpt with ⟨_, q, hq, hqp, _, _, hdvd⟩
          intro hpp
          rcases (Nat.Prime.eq_one_or_self_of_dvd hpp q hdvd) with h1 | h1
          · exact absurd h1 (Nat.Prime.ne_one hq)
          · omega
        rw [hinv y]
        constructor
        · rintro ⟨hyN, q, hq, hqp, hql, hsq, hdvd⟩
          exact ⟨hyN, q, hq, by omega, hql, hsq, hdvd⟩
        · rintro ⟨hyN, q, hq, hqp1, hql, hsq, hdvd⟩
          by_cases hqp : q < p
          · exact ⟨hyN, q, hq, hqp, hql, hsq, hdvd⟩
          · have hqeq : q = p := by omega
            rw [hqeq] at hq
            exact absurd hq hpcomp
    · rw [SieveAux, dif_neg hpl]
      rw [hinv x]
      constructor
      · rintro ⟨hxN, q, hq, _, hql, hsq, hdvd⟩
        exact ⟨hxN, q, hq, hql, hsq, hdvd⟩
      · rintro ⟨hxN, q, hq, hql, hsq, hdvd⟩
        exact ⟨hxN, q, hq, by omega, hql, hsq, hdvd⟩

/-- Final table of the sequential (inner-parallel) sieve: index `x` is
marked exactly when some prime `q ≤ limit` with `q * q ≤ x` divides
`x ≤ N`. -/
theorem sieveSeq_true_iff (N limit x : ℕ) :
    sieveSeq N limit x = true ↔
      (x ≤ N ∧ ∃ q, Nat.Prime q ∧ q ≤ limit ∧ q * q ≤ x ∧ q ∣ x) := by
  apply SieveAux_true_iff_aux N limit (limit + 1) 2 _ (by omega) (by omega)
  intro y
  constructor
  · intro h
    simp at h
  · rintro ⟨_, q, hq, hq2, _⟩
    have := Nat.Prime.two_le hq
    omega

theorem SieveOuterAux_true_iff_aux (N limit : ℕ) (sees : ℕ → Bool) :
    ∀ m p t, limit + 1 - p ≤ m → 2 ≤ p →
      (∀ y, t y = true ↔
        (y ≤ N ∧ ∃ q, 2 ≤ q ∧ q < p ∧ q ≤ limit ∧ sees q = false ∧
          q * q ≤ y ∧ q ∣ y)) →
      ∀ x, SieveOuterAux N limit sees p t x = true ↔
        (x ≤ N ∧ ∃ q, 2 ≤ q ∧ q ≤ limit ∧ sees q = false ∧
          q * q ≤ x ∧ q ∣ x) := by
  intro m
  induction m with
  | zero =>
    intro p t hm h2 hinv x
    rw [SieveOuterAux, dif_neg (by omega)]
    rw [hinv x]
    constructor
    · rintro ⟨hxN, q, hq2, _, hql, hs, hsq, hdvd⟩
      exact ⟨hxN, q, hq2, hql, hs, hsq, hdvd⟩
    · rintro ⟨hxN, q, hq2, hql, hs, hsq, hdvd⟩
      exact ⟨hxN, q, hq2, by omega, hql, hs, hsq, hdvd⟩
  | succ m ih =>
    intro p t hm h2 hinv x
    by_cases hpl : p ≤ limit
    · rw [SieveOuterAux, dif_pos hpl]
      apply ih (p + 1) _ (by omega) (by omega)
      intro y
      by_cases hsp : sees p = false
      · rw [if_pos hsp]
        rw [markLoop_sq_true_iff N p (by omega) t y]
        rw [hinv y]
        constructor
        · rintro (⟨hyN, q, hq2, hqp, hql, hs, hsq, hdvd⟩ | ⟨hsq, hyN, hdvd⟩)
          · exact ⟨hyN, q, hq2, by omega, hql, hs, hsq, hdvd⟩
          · exact ⟨hyN, p, h2, by omega, hpl, hsp, hsq, hdvd⟩
        · rintro ⟨hyN, q, hq2, hqp1, hql, hs, hsq, hdvd⟩
          by_cases hqp : q < p
          · exact Or.inl ⟨hyN, q, hq2, hqp, hql, hs, hsq, hdvd⟩
          · have hqeq : q = p := by omega
            subst hqeq
            exact Or.inr ⟨hsq, hyN, hdvd⟩
      · rw [if_neg hsp]
        have hsp2 : sees p = true := by
          cases h : sees p
          · exact absurd h hsp
          · rfl
        rw [hinv y]
        constructor
        · rintro ⟨hyN, q, hq2, hqp, hql, hs, hsq, hdvd⟩
          exact ⟨hyN, q, hq2, by omega, hql, hs, hsq, hdvd⟩
        · rintro ⟨hyN, q, hq2, hqp1, hql, hs, hsq, hdvd⟩
          by_cases hqp : q < p
          · exact ⟨hyN, q, hq2, hqp, hql, hs, hsq, hdvd⟩
          · have hqeq : q = p := by omega
            subst hqeq
            rw [hsp2] at hs
            exact absurd hs (by simp)
    · rw [SieveOuterAux, dif_neg hpl]
      rw [hinv x]
      constructor
      · rintro ⟨hxN, q, hq2, _, hql, hs, hsq, hdvd⟩
        exact ⟨hxN, q, hq2, hql, hs, hsq, hdvd⟩
      · rintro ⟨hxN, q, hq2, hql, hs, hsq, hdvd⟩
        exact ⟨hxN, q, hq2, by omega, hql, hs, hsq, hdvd⟩

/-- Final table of one racy execution of the outer-parallel sieve: index
`x` is marked exactly when some candidate `q ∈ [2, limit]` whose
primality read observed `false` has `q * q ≤ x` and divides `x ≤ N`. -/
theorem sieveOuterPar_true_iff (N limit : ℕ) (sees : ℕ → Bool) (x : ℕ) :
    sieveOuterPar N limit sees x = true ↔
      (x ≤ N ∧ ∃ q, 2 ≤ q ∧ q ≤ limit ∧ sees q = false ∧
        q * q ≤ x ∧ q ∣ x) := by
  apply SieveOuterAux_true_iff_aux N limit sees (limit + 1) 2 _ (by omega)
    (by omega)
  intro y
  constructor
  · intro h
    simp at h
  · rintro ⟨_, q, hq2, hqlt, _⟩
    omega

/-- Any composite marker can be replaced by its least prime factor: the
outer-parallel marked set is contained in the prime-marked set. -/
theorem marked_by_prime (limit q x : ℕ) (hq2 : 2 ≤ q) (hql : q ≤ limit)
    (hsq : q * q ≤ x) (hdvd : q ∣ x) :
    ∃ r, Nat.Prime r ∧ r ≤ limit ∧ r * r ≤ x ∧ r ∣ x := by
  refine ⟨q.minFac, Nat.minFac_prime (by omega), ?_, ?_, ?_⟩
  · have := Nat.minFac_le (show 0 < q by omega)
    omega
  · have hle := Nat.minFac_le (show 0 < q by omega)
    calc q.minFac * q.minFac ≤ q * q := Nat.mul_le_mul hle hle
    _ ≤ x := hsq
  · exact dvd_trans (Nat.minFac_dvd q) hdvd

/-- Functional-correctness core: with any limit at least `⌊√N⌋` the
sequential sieve marks exactly the composite numbers `4 ≤ x ≤ N`;
equivalently, an entry `2 ≤ x ≤ N` is left `false` iff `x` is prime. -/
theorem sieveSeq_correct (N limit x : ℕ) (hl : Nat.sqrt N ≤ limit) :
    sieveSeq N limit x = true ↔ (x ≤ N ∧ 2 ≤ x ∧ ¬ Nat.Prime x) := by
  rw [sieveSeq_true_iff]
  constructor
  · rintro ⟨hxN, q, hq, hql, hsq, hdvd⟩
    have hq2 := Nat.Prime.two_le hq
    have hqx : q < x := by
      have : 2 * q ≤ q * q := Nat.mul_le_mul_right q hq2
      omega
    refine ⟨hxN, by omega, ?_⟩
    intro hx
    rcases Nat.Prime.eq_one_or_self_of_dvd hx q hdvd with h1 | h1
    · omega
    · omega
  · rintro ⟨hxN, hx2, hxnp⟩
    refine ⟨hxN, x.minFac, Nat.minFac_prime (by omega), ?_, ?_, Nat.minFac_dvd x⟩
    · have hsq : x.minFac * x.minFac ≤ x := by
        have := Nat.minFac_sq_le_self (show 0 < x by omega) hxnp
        calc x.minFac * x.minFac = x.minFac ^ 2 := (sq x.minFac).symm
        _ ≤ x := this
      have h1 : x.minFac ≤ Nat.sqrt N :=
        Nat.le_sqrt.2 (le_trans hsq hxN)
      omega
    · have := Nat.minFac_sq_le_self (show 0 < x by omega) hxnp
      calc x.minFac * x.minFac = x.minFac ^ 2 := (sq x.minFac).symm
      _ ≤ x := this

/-- The table entry of a prime index is never set (any limit). -/
theorem sieveSeq_prime_false (N limit x : ℕ) (hx : Nat.Prime x) :
    sieveSeq N limit x = false := by
  cases h : sieveSeq N limit x
  · rfl
  · rcases (sieveSeq_true_iff N limit x).1 h with ⟨hxN, q, hq, hql, hsq, hdvd⟩
    have hq2 := Nat.Prime.two_le hq
    have hqx : q < x := by
      have : 2 * q ≤ q * q := Nat.mul_le_mul_right q hq2
      omega
    rcases Nat.Prime.eq_one_or_self_of_dvd hx q hdvd with h1 | h1 <;> omega

/-!  The faithful `uint32_t` inner loop: stepping, overflow-free agreement
with `markLoop`, and the behaviour of wrapped chains. -/

theorem markLoopU32_step (fuel N p c : ℕ) (t : ℕ → Bool) (h : c ≤ N) :
    markLoopU32 (fuel + 1) N p c t =
      markLoopU32 fuel N p ((c + p) % U32MOD) (markCell t c) := by
  rw [markLoopU32, if_pos h]

theorem markLoopU32_exit (fuel N p c : ℕ) (t : ℕ → Bool) (h : ¬ c ≤ N) :
    markLoopU32 (fuel + 1) N p c t = some t := by
  rw [markLoopU32, if_neg h]

/-- As long as no step wraps, the loop advances `j` steps from `c` to
`c + j * p`, marking cells along the way and only ever turning entries to
`true`. -/
theorem markLoopU32_run (N p : ℕ) :
    ∀ j c t fuel, c + j * p ≤ N + p → c + j * p < U32MOD →
      ∃ t2, markLoopU32 (j + fuel) N p c t = markLoopU32 fuel N p (c + j * p) t2 ∧
        ∀ x, t x = true → t2 x = true := by
  intro j
  induction j with
  | zero => exact fun c t fuel _ _ => ⟨t, by simp, fun x h => h⟩
  | succ j ih =>
    intro c t fuel h1 h2
    have hs : (j + 1) * p = j * p + p := by ring
    rw [hs] at h1 h2
    have hcN : c ≤ N := by omega
    have hfs : j + 1 + fuel = (j + fuel) + 1 := by omega
    rw [hfs, markLoopU32_step (j + fuel) N p c t hcN]
    have hmod : (c + p) % U32MOD = c + p := Nat.mod_eq_of_lt (by omega)
    rw [hmod]
    obtain ⟨t2, heq, hmono⟩ := ih (c + p) (markCell t c) fuel (by omega) (by omega)
    refine ⟨t2, ?_, ?_⟩
    · rw [heq]
      congr 1
      omega
    · intro x hx
      apply hmono
      rw [markCell_true_iff]
      exact Or.inr hx

/-- Overflow-free agreement: when even the exit value `≤ N + p` cannot
reach `2^32`, the `uint32_t` loop terminates and computes exactly the plain
`ℕ` loop `markLoop`. -/
theorem markLoopU32_eq_markLoop (N p : ℕ) (hp : 0 < p) (hN : N + p < U32MOD) :
    ∀ fuel c t, N + 2 - c ≤ fuel → 0 < fuel →
      markLoopU32 fuel N p c t = some (markLoop N p c t) := by
  intro fuel
  induction fuel with
  | zero => omega
  | succ fuel ih =>
    intro c t hm _
    by_cases hc : c ≤ N
    · rw [markLoopU32_step fuel N p c t hc]
      have hmod : (c + p) % U32MOD = c + p := Nat.mod_eq_of_lt (by omega)
      rw [hmod]
      rw [markLoop, dif_pos ⟨hp, hc⟩]
      exact ih (c + p) (markCell t c) (by omega) (by omega)
    · rw [markLoopU32_exit fuel N p c t hc]
      rw [markLoop, dif_neg (fun h => hc h.2)]

/-- At the clamped maximum bound `MAX_SIEVE - 1 = 2^32 - 2`, the marking
chain of candidate 2 consists of even values only; an even `uint32_t` value
is always `≤ 2^32 - 2`, so the loop guard never fails and the wrapped
increment keeps the value even: the loop never finishes, whatever the
fuel. -/
theorem markLoopU32_two_diverges :
    ∀ fuel c t, c % 2 = 0 → c < U32MOD →
      markLoopU32 fuel (MAX_SIEVE - 1) 2 c t = none := by
  intro fuel
  induction fuel with
  | zero => intro c t _ _; rfl
  | succ fuel ih =>
    intro c t he hlt
    have hN : MAX_SIEVE - 1 = 4294967294 := by rfl
    have hc : c ≤ MAX_SIEVE - 1 := by
      rw [hN]
      have : c < 4294967296 := by
        have : U32MOD = 4294967296 := rfl
        omega
      omega
    rw [markLoopU32_step fuel (MAX_SIEVE - 1) 2 c t hc]
    apply ih
    · rw [show U32MOD = 4294967296 from rfl]
      omega
    · exact Nat.mod_lt _ (by rw [show U32MOD = 4294967296 from rfl]; omega)

/-- At the accepted bound `4294967293 = 2^32 - 3` a marking chain with step
4 never finishes: its values stay `≡ 0 (mod 4)`, every such `uint32_t`
value is `≤ 2^32 - 4 < 2^32 - 3` and passes the guard, and the only values
that could fail the guard, `2^32 - 2` and `2^32 - 1`, are `≡ 2` and `≡ 3
(mod 4)` and are never hit. -/
theorem markLoopU32_four_diverges :
    ∀ fuel c t, c % 4 = 0 → c < U32MOD →
      markLoopU32 fuel 4294967293 4 c t = none := by
  intro fuel
  induction fuel with
  | zero => intro c t _ _; rfl
  | succ fuel ih =>
    intro c t he hlt
    have hc : c ≤ 4294967293 := by
      rw [show U32MOD = 4294967296 from rfl] at hlt
      omega
    rw [markLoopU32_step fuel 4294967293 4 c t hc]
    apply ih
    · rw [show U32MOD = 4294967296 from rfl]
      omega
    · exact Nat.mod_lt _ (by rw [show U32MOD = 4294967296 from rfl]; omega)

/-- Overflow-free completion of the sequential `uint32_t` sieve: with every
candidate `≤ 65535` (so `Number * Number` cannot overflow) and
`N + limit < 2^32` (so no marking chain can wrap), the faithful sieve
finishes within fuel `N + 2` per chain and computes exactly the unbounded
model `SieveAux`. -/
theorem sieveU32_eq_SieveAux (N limit : ℕ) (hlim : limit ≤ 65535)
    (hN : N + limit < U32MOD) :
    ∀ m p t fuel, limit + 1 - p ≤ m → 0 < p → N + 2 ≤ fuel →
      sieveU32 fuel N limit p t = some (SieveAux N limit p t) := by
  intro m
  induction m with
  | zero =>
    intro p t fuel hm hp hf
    rw [sieveU32, dif_neg (by omega), SieveAux, dif_neg (by omega)]
  | succ m ih =>
    intro p t fuel hm hp hf
    by_cases hpl : p ≤ limit
    · rw [sieveU32, dif_pos hpl, SieveAux, dif_pos hpl]
      by_cases ht : t p = false
      · simp only [if_pos ht]
        have hpp : (p * p) % U32MOD = p * p := by
          apply Nat.mod_eq_of_lt
          have h1 : p * p ≤ 65535 * 65535 :=
            Nat.mul_le_mul (by omega) (by omega)
          rw [show U32MOD = 4294967296 from rfl]
          omega
        have hbridge := markLoopU32_eq_markLoop N p hp (by omega) fuel (p * p)
          t (by omega) (by omega)
        rw [hpp, hbridge]
        exact ih (p + 1) _ fuel (by omega) (by omega) hf
      · simp only [if_neg ht]
        exact ih (p + 1) t fuel (by omega) (by omega) hf
    · rw [sieveU32, dif_neg hpl, SieveAux, dif_neg hpl]

theorem sieveU32_complete (N limit fuel : ℕ) (hlim : limit ≤ 65535)
    (hN : N + limit < U32MOD) (hf : N + 2 ≤ fuel) :
    sieveU32 fuel N limit 2 (fun _ => false) = some (sieveSeq N limit) :=
  sieveU32_eq_SieveAux N limit hlim hN (limit + 1) 2 (fun _ => false) fuel
    (by omega) (by omega) hf

/-- Overflow-free completion of a racy execution of the outer-parallel
`uint32_t` sieve: under the same bounds, every selected candidate's chain
finishes and the execution computes exactly the unbounded model
`SieveOuterAux`. -/
theorem sieveOuterU32_eq_SieveOuterAux (N limit : ℕ) (sees : ℕ → Bool)
    (hlim : limit ≤ 65535) (hN : N + limit < U32MOD) :
    ∀ m p t fuel, limit + 1 - p ≤ m → 0 < p → N + 2 ≤ fuel →
      sieveOuterU32 fuel N limit sees p t =
        some (SieveOuterAux N limit sees p t) := by
  intro m
  induction m with
  | zero =>
    intro p t fuel hm hp hf
    rw [sieveOuterU32, dif_neg (by omega), SieveOuterAux, dif_neg (by omega)]
  | succ m ih =>
    intro p t fuel hm hp hf
    by_cases hpl : p ≤ limit
    · rw [sieveOuterU32, dif_pos hpl, SieveOuterAux, dif_pos hpl]
      by_cases hsp : sees p = false
      · simp only [if_pos hsp]
        have hpp : (p * p) % U32MOD = p * p := by
          apply Nat.mod_eq_of_lt
          have h1 : p * p ≤ 65535 * 65535 :=
            Nat.mul_le_mul (by omega) (by omega)
          rw [show U32MOD = 4294967296 from rfl]
          omega
        have hbridge := markLoopU32_eq_markLoop N p hp (by omega) fuel (p * p)
          t (by omega) (by omega)
        rw [hpp, hbridge]
        exact ih (p + 1) _ fuel (by omega) (by omega) hf
      · simp only [if_neg hsp]
        exact ih (p + 1) t fuel (by omega) (by omega) hf
    · rw [sieveOuterU32, dif_neg hpl, SieveOuterAux, dif_neg hpl]

theorem sieveOuterU32_complete (N limit fuel : ℕ) (sees : ℕ → Bool)
    (hlim : limit ≤ 65535) (hN : N + limit < U32MOD) (hf : N + 2 ≤ fuel) :
    sieveOuterU32 fuel N limit sees 2 (fun _ => false) =
      some (sieveOuterPar N limit sees) :=
  sieveOuterU32_eq_SieveOuterAux N limit sees hlim hN (limit + 1) 2
    (fun _ => false) fuel (by omega) (by omega) hf

/-!  The output stage. -/

theorem sepJoin_cons (sep a : String) (l : List String) (h : l ≠ []) :
    sepJoin sep (a :: l) = a ++ sep ++ sepJoin sep l := by
  cases l with
  | nil => exact absurd rfl h
  | cons b r => rfl

/-- The printing loop produces exactly the rendering of the list of
still-unmarked indices in `[num, N]`. -/
theorem PrintPrimesAux_eq_renderAux (t : ℕ → Bool) (N L : ℕ) (sep : String)
    (hL : L ≠ 0) :
    ∀ m num pil, N + 1 - num ≤ m →
      PrintPrimesAux t N L sep num pil =
        some (renderAux L sep (emitted t num (N + 1 - num)) pil) := by
  intro m
  induction m with
  | zero =>
    intro num pil hm
    rw [PrintPrimesAux, dif_neg (by omega : ¬ num ≤ N)]
    rw [show N + 1 - num = 0 from by omega]
    simp [emitted, renderAux]
  | succ m ih =>
    intro num pil hm
    by_cases hnum : num ≤ N
    · have hr : List.range' num (N + 1 - num) =
          num :: List.range' (num + 1) (N - num) := by
        rw [show N + 1 - num = (N - num) + 1 from by omega, List.range'_succ]
      rw [PrintPrimesAux, dif_pos hnum]
      by_cases ht : t num = false
      · rw [if_pos ht, if_neg hL]
        have ih2 := ih (num + 1) ((pil + 1) % L) (by omega)
        rw [show N + 1 - (num + 1) = N - num from by omega] at ih2
        simp only [ih2, Option.map_some']
        have hem : emitted t num (N + 1 - num) =
            num :: emitted t (num + 1) (N - num) := by
          unfold emitted
          rw [hr, List.filter_cons]
          simp [ht]
        rw [hem, renderAux]
      · rw [if_neg ht]
        have ih2 := ih (num + 1) pil (by omega)
        rw [show N + 1 - (num + 1) = N - num from by omega] at ih2
        rw [ih2]
        have hem : emitted t num (N + 1 - num) = emitted t (num + 1) (N - num) := by
          unfold emitted
          rw [hr, List.filter_cons]
          have ht2 : t num = true := by
            cases h : t num
            · exact absurd h ht
            · rfl
          simp [ht2]
        rw [hem]
    · rw [PrintPrimesAux, dif_neg hnum]
      rw [show N + 1 - num = 0 from by omega]
      simp [emitted, renderAux]

/-- Line structure of the rendering: from position `pil` the loop first
completes the current line (`L - pil` further entries, separated by `sep`,
closed by a newline) and then continues from position 0; a list too short
to complete the line is flushed with `sep` after every entry and a final
newline; an empty list contributes only the closing newline of a partial
line. -/
theorem renderAux_structure (L : ℕ) (sep : String) (hL : 0 < L) :
    ∀ nums pil, pil < L →
      renderAux L sep nums pil =
        if L - pil ≤ nums.length ∧ nums ≠ [] then
          sepJoin sep ((nums.take (L - pil)).map toString) ++ "\n" ++
            renderAux L sep (nums.drop (L - pil)) 0
        else if nums = [] then (if 0 < pil then "\n" else "")
        else catAll (nums.map (fun n => toString n ++ sep)) ++ "\n" := by
  intro nums
  induction nums with
  | nil =>
    intro pil hp
    simp [renderAux]
  | cons n ns ih =>
    intro pil hp
    rw [renderAux]
    by_cases hend : pil + 1 = L
    · have hpil2 : (pil + 1) % L = 0 := by rw [hend]; exact Nat.mod_self L
      have hLp : L - pil = 1 := by omega
      rw [hpil2, hLp]
      rw [if_pos (show (0 : ℕ) = 0 from rfl)]
      rw [if_pos (show (1 : ℕ) ≤ (n :: ns).length ∧ n :: ns ≠ [] from
        ⟨by simp, by simp⟩)]
      rw [show (n :: ns).take 1 = [n] from rfl,
        show (n :: ns).drop 1 = ns from rfl,
        show List.map toString [n] = [toString n] from rfl,
        show sepJoin sep [toString n] = toString n from rfl]
    · have hlt : pil + 1 < L := by omega
      have hpil2 : (pil + 1) % L = pil + 1 := Nat.mod_eq_of_lt hlt
      rw [hpil2]
      rw [if_neg (Nat.succ_ne_zero pil)]
      have hih := ih (pil + 1) hlt
      by_cases hns : ns = []
      · subst hns
        rw [hih]
        rw [if_neg (show ¬(L - (pil + 1) ≤ ([] : List ℕ).length ∧
            ([] : List ℕ) ≠ []) from by simp)]
        rw [if_pos (show ([] : List ℕ) = [] from rfl)]
        rw [if_pos (Nat.succ_pos pil)]
        rw [if_neg (show ¬(L - pil ≤ ([n] : List ℕ).length ∧
            ([n] : List ℕ) ≠ []) from by
          rintro ⟨h1, _⟩
          simp only [List.length_cons, List.length_nil] at h1
          omega)]
        rw [if_neg (show ¬([n] : List ℕ) = [] from by simp)]
        rw [show List.map (fun m => toString m ++ sep) [n] = [toString n ++ sep]
          from rfl]
        rw [show catAll [toString n ++ sep] = (toString n ++ sep) ++ "" from rfl]
        rw [String.append_empty]
      · by_cases hlen : L - (pil + 1) ≤ ns.length
        · rw [hih, if_pos ⟨hlen, hns⟩]
          rw [if_pos (show L - pil ≤ (n :: ns).length ∧ n :: ns ≠ [] from
            ⟨by simp only [List.length_cons]; omega, by simp⟩)]
          have htake : (n :: ns).take (L - pil) = n :: ns.take (L - (pil + 1)) := by
            rw [show L - pil = (L - (pil + 1)) + 1 from by omega]
            rw [List.take_succ_cons]
          have hdrop : (n :: ns).drop (L - pil) = ns.drop (L - (pil + 1)) := by
            rw [show L - pil = (L - (pil + 1)) + 1 from by omega]
            rw [List.drop_succ_cons]
          rw [htake, hdrop, List.map_cons]
          rw [sepJoin_cons sep (toString n) _ (by
            simp only [ne_eq, List.map_eq_nil_iff]
            intro h
            rw [List.take_eq_nil_iff] at h
            rcases h with h | h
            · omega
            · exact hns h)]
          simp [String.append_assoc]
        · rw [hih]
          rw [if_neg (fun h => hlen h.1)]
          rw [if_neg hns]
          rw [if_neg (show ¬(L - pil ≤ (n :: ns).length ∧ n :: ns ≠ []) from by
            rintro ⟨h1, _⟩
            simp only [List.length_cons] at h1
            omega)]
          rw [if_neg (show ¬(n :: ns) = [] from by simp)]
          rw [List.map_cons]
          rw [show catAll ((toString n ++ sep) ::
              List.map (fun m => toString m ++ sep) ns) =
            (toString n ++ sep) ++ catAll (List.map (fun m => toString m ++ sep) ns)
            from rfl]
          simp [String.append_assoc]

theorem renderAux_eq_specRenderF (L : ℕ) (sep : String) (hL : 0 < L) :
    ∀ fuel nums, nums.length ≤ fuel →
      renderAux L sep nums 0 = specRenderF sep L fuel nums := by
  intro fuel
  induction fuel with
  | zero =>
    intro nums h
    have : nums = [] := by
      cases nums
      · rfl
      · simp at h
    subst this
    simp [renderAux, specRenderF]
  | succ fuel ih =>
    intro nums hlen
    cases nums with
    | nil => simp [renderAux, specRenderF]
    | cons n ns =>
      rw [renderAux_structure L sep hL (n :: ns) 0 hL]
      rw [specRenderF]
      simp only [Nat.sub_zero]
      by_cases hc : L ≤ (n :: ns).length
      · rw [if_pos ⟨hc, by simp⟩, if_pos ⟨hL, hc⟩]
        have hrec : renderAux L sep ((n :: ns).drop L) 0 =
            specRenderF sep L fuel ((n :: ns).drop L) := by
          apply ih
          simp only [List.length_drop, List.length_cons] at hc hlen ⊢
          omega
        rw [hrec]
      · rw [if_neg (show ¬(L ≤ (n :: ns).length ∧ n :: ns ≠ []) from
          fun h => hc h.1)]
        rw [if_neg (show ¬(n :: ns) = [] from by simp)]
        rw [if_neg (show ¬(0 < L ∧ L ≤ (n :: ns).length) from
          fun h => hc h.2)]

theorem renderAux_eq_specRender (L : ℕ) (sep : String) (hL : 0 < L)
    (nums : List ℕ) :
    renderAux L sep nums 0 = specRender L sep nums :=
  renderAux_eq_specRenderF L sep hL nums.length nums (le_refl _)

/-- `PrintPrimes` with a positive per-line count prints exactly the
spec-side rendering of the unmarked indices in `[2, N]`. -/
theorem PrintPrimes_eq_specRender (t : ℕ → Bool) (N L : ℕ) (sep : String)
    (hL : 0 < L) :
    PrintPrimes t N L sep = some (specRender L sep (emitted t 2 (N - 1))) := by
  unfold PrintPrimes
  rw [PrintPrimesAux_eq_renderAux t N L sep (by omega) (N + 1 - 2) 2 0 (le_refl _)]
  rw [show N + 1 - 2 = N - 1 from by omega]
  rw [renderAux_eq_specRender L sep hL]

/-- With per-line count 0 the loop reaches
`(PrimeInLine + 1) % PrimesPerLine` — a modulo by zero — as soon as some
unmarked index `≥ num` exists. -/
theorem PrintPrimesAux_mod_zero (t : ℕ → Bool) (N : ℕ) (sep : String) :
    ∀ m num pil, N + 1 - num ≤ m → (∃ i, num ≤ i ∧ i ≤ N ∧ t i = false) →
      PrintPrimesAux t N 0 sep num pil = none := by
  intro m
  induction m with
  | zero =>
    rintro num pil hm ⟨i, h1, h2, _⟩
    omega
  | succ m ih =>
    rintro num pil hm ⟨i, h1, h2, h3⟩
    have hnum : num ≤ N := le_trans h1 h2
    rw [PrintPrimesAux, dif_pos hnum]
    by_cases ht : t num = false
    · rw [if_pos ht, if_pos rfl]
    · rw [if_neg ht]
      apply ih (num + 1) pil (by omega)
      have hne : i ≠ num := by
        intro h
        rw [h] at h3
        exact ht h3
      exact ⟨i, by omega, h2, h3⟩

theorem PrintPrimes_mod_zero (t : ℕ → Bool) (N : ℕ) (sep : String)
    (h : ∃ i, 2 ≤ i ∧ i ≤ N ∧ t i = false) :
    PrintPrimes t N 0 sep = none :=
  PrintPrimesAux_mod_zero t N sep (N + 1 - 2) 2 0 (le_refl _) h

/-- The unmarked entries of a correctly sieved table over `[2, N]` are
exactly the primes up to `N`. -/
theorem emitted_sieve_eq_primesUpTo (N limit : ℕ) (hl : Nat.sqrt N ≤ limit) :
    emitted (sieveSeq N limit) 2 (N - 1) = primesUpTo N := by
  by_cases hN : 2 ≤ N
  · unfold emitted primesUpTo
    have hrange : List.range (N + 1) = 0 :: 1 :: List.range' 2 (N - 1) := by
      rw [List.range_eq_range']
      rw [show N + 1 = N + 1 from rfl, List.range'_succ]
      rw [show N = (N - 1) + 1 from by omega, List.range'_succ]
      norm_num
    rw [hrange]
    rw [List.filter_cons, List.filter_cons]
    rw [if_neg (by decide), if_neg (by decide)]
    apply List.filter_congr
    intro i hi
    rw [List.mem_range'_1] at hi
    have hi2 : 2 ≤ i := hi.1
    have hiN : i ≤ N := by omega
    by_cases hp : Nat.Prime i
    · have hfalse : sieveSeq N limit i = false := sieveSeq_prime_false N limit i hp
      simp [hfalse, hp]
    · have htrue : sieveSeq N limit i = true :=
        (sieveSeq_correct N limit i hl).2 ⟨hiN, hi2, hp⟩
      simp [htrue, hp]
  · have hcase : N = 0 ∨ N = 1 := by omega
    have hzero : N - 1 = 0 := by omega
    rw [hzero]
    rw [show emitted (sieveSeq N limit) 2 0 = [] from rfl]
    rcases hcase with h | h <;> subst h <;> decide

/-- The full printing behaviour of a run on the sieved table. -/
theorem PrintPrimes_sieve (N L : ℕ) (sep : String) (hL : 0 < L) :
    PrintPrimes (sieveSeq N (Nat.sqrt N)) N L sep =
      some (specRender L sep (primesUpTo N)) := by
  rw [PrintPrimes_eq_specRender _ _ _ _ hL]
  rw [emitted_sieve_eq_primesUpTo N (Nat.sqrt N) (le_refl _)]

/-- Whatever is rendered for a nonempty list ends with a newline. -/
theorem specRenderF_endsWith (sep : String) (L : ℕ) :
    ∀ fuel nums, nums ≠ [] → nums.length ≤ fuel →
      ∃ s, specRenderF sep L fuel nums = s ++ "\n" := by
  intro fuel
  induction fuel with
  | zero =>
    intro nums hne hlen
    cases nums with
    | nil => exact absurd rfl hne
    | cons n ns => simp at hlen
  | succ fuel ih =>
    intro nums hne hlen
    cases nums with
    | nil => exact absurd rfl hne
    | cons n ns =>
      rw [specRenderF]
      by_cases hc : 0 < L ∧ L ≤ (n :: ns).length
      · rw [if_pos hc]
        by_cases hd : (n :: ns).drop L = []
        · rw [hd]
          rw [show specRenderF sep L fuel [] = "" from by cases fuel <;> rfl]
          exact ⟨sepJoin sep (List.map toString ((n :: ns).take L)), by
            rw [String.append_empty]⟩
        · obtain ⟨s, hs⟩ := ih ((n :: ns).drop L) hd (by
            simp only [List.length_drop, List.length_cons] at hlen ⊢
            omega)
          rw [hs]
          exact ⟨sepJoin sep (List.map toString ((n :: ns).take L)) ++ "\n" ++ s, by
            simp [String.append_assoc]⟩
      · rw [if_neg hc]
        exact ⟨catAll (List.map (fun m => toString m ++ sep) (n :: ns)), rfl⟩

theorem specRender_endsWith (L : ℕ) (sep : String) (nums : List ℕ)
    (hne : nums ≠ []) :
    ∃ s, specRender L sep nums = s ++ "\n" :=
  specRenderF_endsWith sep L nums.length nums hne (le_refl _)

/-!  Behaviour of `main` around parsing and printing. -/

/-- A failed parse shows usage on the error stream, writes nothing to
standard output and exits with `EXIT_FAILURE`, whatever the fuel (the
sieve is never entered). -/
theorem mainRun_fail (args : List String) (e : String) (errs : List String)
    (fuel : ℕ) (h : ParseArguments args = .fail errs) :
    mainRun args e fuel = .exits 1 "" (errs ++ [usageText]) := by
  rw [mainRun, h]

/-- Streams of a successful parse whose sieve phase finishes with table
`t`: standard output is the timing line (exactly when `-t` was given)
followed by the rendering of the still-unmarked entries of `t` (exactly
when printing was not suppressed by `-q`); the error stream holds exactly
the parse warnings; the exit code is `EXIT_SUCCESS`. -/
theorem mainRun_ok (args : List String) (e : String) (cfg : Config) (mp : ℕ)
    (errs : List String) (fuel : ℕ) (t : ℕ → Bool)
    (h : ParseArguments args = .ok cfg mp errs)
    (hs : sieveU32 fuel mp (Nat.sqrt mp) 2 (fun _ => false) = some t)
    (hL : 0 < cfg.PrimesPerLine) :
    mainRun args e fuel = .exits 0
      ((if cfg.ShouldPrintTime then timingLine e else "") ++
        (if cfg.ShouldPrintPrimes then
          specRender cfg.PrimesPerLine cfg.Separator (emitted t 2 (mp - 1))
        else ""))
      errs := by
  rw [mainRun, h]
  dsimp only
  unfold mainSieveRun
  rw [hs]
  dsimp only
  cases hpp : cfg.ShouldPrintPrimes
  · simp [String.append_empty]
  · rw [PrintPrimes_eq_specRender t mp cfg.PrimesPerLine cfg.Separator hL]
    simp

/-!  Parsing support lemmas. -/

theorem takeWhile_digits (cs : List Char) (h : ∀ c ∈ cs, c.isDigit) :
    cs.takeWhile Char.isDigit = cs := by
  induction cs with
  | nil => rfl
  | cons c cs ih =>
    rw [List.takeWhile_cons]
    rw [if_pos (h c (by simp))]
    rw [ih (fun x hx => h x (by simp [hx]))]

theorem strtoumax_digits (t : String) (h : ∀ c ∈ t.data, c.isDigit) :
    strtoumax t = digitsToVal t.data := by
  unfold strtoumax
  rw [takeWhile_digits t.data h]

/-- A token whose first character is not `-` is not an option token. -/
theorem optChar_nonoption (t : String) (c0 : Char) (cs0 : List Char)
    (hdata : t.data = c0 :: cs0) (hc : c0 ≠ '-') : optChar t = none := by
  rw [optChar, hdata]
  split
  · next c cs heq =>
    rw [List.cons.injEq] at heq
    exact absurd heq.1 hc
  · rfl

/-- A token whose first character is not `-` ends option processing. -/
theorem parseLoopF_nonoption (arg1 : String) (fuel errno : ℕ) (cfg : Config)
    (errs : List String) (t : String) (rest : List String) (c0 : Char)
    (cs0 : List Char) (hdata : t.data = c0 :: cs0) (hc : c0 ≠ '-') :
    parseLoopF arg1 (fuel + 1) errno cfg errs (t :: rest) =
      finishMax arg1 errno cfg errs (t :: rest) := by
  rw [parseLoopF]
  rw [if_neg (by simp : ¬(t :: rest : List String) = [])]
  simp only [List.headD_cons, List.tail_cons]
  rw [optChar_nonoption t c0 cs0 hdata hc]
  rfl

/-!  Strategy agreement in the overflow-free regime. -/

/-- Any racy execution of the outer-parallel model whose primality reads
are sound (an observed `true` only comes from a write, hence from a
composite cell) computes the sequential table at every bound, limit and
index. -/
theorem sieveOuterPar_eq_sieveSeq (N limit : ℕ) (sees : ℕ → Bool)
    (hsees : ∀ p, 2 ≤ p → p ≤ limit → sees p = true → ¬ Nat.Prime p) (x : ℕ) :
    sieveOuterPar N limit sees x = sieveSeq N limit x := by
  have hiff : (sieveOuterPar N limit sees x = true) ↔
      (sieveSeq N limit x = true) := by
    rw [sieveOuterPar_true_iff, sieveSeq_true_iff]
    constructor
    · rintro ⟨hxN, q, hq2, hql, hs0, hsq, hdvd⟩
      obtain ⟨r, hr, hrl, hrsq, hrdvd⟩ := marked_by_prime limit q x hq2 hql hsq hdvd
      exact ⟨hxN, r, hr, hrl, hrsq, hrdvd⟩
    · rintro ⟨hxN, q, hq, hql, hsq, hdvd⟩
      cases hs : sees q
      · exact ⟨hxN, q, Nat.Prime.two_le hq, hql, hs, hsq, hdvd⟩
      · exact absurd hq (hsees q (Nat.Prime.two_le hq) hql hs)
  cases h1 : sieveOuterPar N limit sees x <;> cases h2 : sieveSeq N limit x <;>
    simp_all

/-- The `sieve_openmp.c` sieve (outer loop running all the way to the
bound) agrees with `sieveSeq` at every limit covering `⌊√N⌋`. -/
theorem sieveOpenmp_eq_sieveSeq (N limit : ℕ) (hl : Nat.sqrt N ≤ limit)
    (x : ℕ) : sieveOpenmp N x = sieveSeq N limit x := by
  have hopen : sieveOpenmp N x = sieveSeq N N x := rfl
  rw [hopen]
  have hiff : (sieveSeq N N x = true) ↔ (sieveSeq N limit x = true) := by
    rw [sieveSeq_true_iff, sieveSeq_true_iff]
    constructor
    · rintro ⟨hxN, q, hq, _, hsq, hdvd⟩
      have hqs : q ≤ Nat.sqrt N := Nat.le_sqrt.2 (le_trans hsq hxN)
      exact ⟨hxN, q, hq, le_trans hqs hl, hsq, hdvd⟩
    · rintro ⟨hxN, q, hq, _, hsq, hdvd⟩
      have hq2 := Nat.Prime.two_le hq
      have hqq : q ≤ q * q := Nat.le_mul_of_pos_left q (by omega)
      exact ⟨hxN, q, hq, by omega, hsq, hdvd⟩
  cases h1 : sieveSeq N N x <;> cases h2 : sieveSeq N limit x <;> simp_all

/-!  Claim theorems. -/

/-- C1 (code over intent): at the accepted bound `4294967293 = 2^32 - 3`
the marking loop of the prime candidate 7 (which every build runs: cell 7 is
never written before candidate 7 is examined in program order) wraps around
`uint32_t`: after marking `49, 56, ..., 4294967292` the increment overflows
to `3`, and the loop then marks `3, 10, 17, ...` before stopping at
`4294967295 > MaxPrime`.  It therefore terminates with table entry 3 set —
reporting the prime 3 as composite — contradicting the postcondition
`table[i] == false ↔ i prime`. -/
theorem c1_sieve_table_wrong_at_wraparound :
    ∃ fuel t2, markLoopU32 fuel 4294967293 7 49 (fun _ => false) = some t2 ∧
      t2 3 = true := by
  have hU : U32MOD = 4294967296 := rfl
  obtain ⟨t1, h1, m1⟩ := markLoopU32_run 4294967293 7 613566749 49
    (fun _ => false) 613566758 (by norm_num) (by rw [hU]; norm_num)
  rw [show 49 + 613566749 * 7 = 4294967292 from by norm_num] at h1
  have s2 : markLoopU32 613566758 4294967293 7 4294967292 t1 =
      markLoopU32 613566757 4294967293 7 3 (markCell t1 4294967292) := by
    rw [show (613566758 : ℕ) = 613566757 + 1 from rfl,
      markLoopU32_step _ _ _ _ _ (by norm_num)]
    rw [show (4294967292 + 7) % U32MOD = 3 from by rw [hU]]
  have s3 : markLoopU32 613566757 4294967293 7 3 (markCell t1 4294967292) =
      markLoopU32 613566756 4294967293 7 10
        (markCell (markCell t1 4294967292) 3) := by
    rw [show (613566757 : ℕ) = 613566756 + 1 from rfl,
      markLoopU32_step _ _ _ _ _ (by norm_num)]
    rw [show (3 + 7) % U32MOD = 10 from by rw [hU]]
  obtain ⟨t4, h4, m4⟩ := markLoopU32_run 4294967293 7 613566754 10
    (markCell (markCell t1 4294967292) 3) 2 (by norm_num) (by rw [hU]; norm_num)
  rw [show 10 + 613566754 * 7 = 4294967288 from by norm_num] at h4
  have s5 : markLoopU32 2 4294967293 7 4294967288 t4 =
      markLoopU32 1 4294967293 7 4294967295 (markCell t4 4294967288) := by
    rw [show (2 : ℕ) = 1 + 1 from rfl, markLoopU32_step _ _ _ _ _ (by norm_num)]
    rw [show (4294967288 + 7) % U32MOD = 4294967295 from by rw [hU]]
  have s6 : markLoopU32 1 4294967293 7 4294967295 (markCell t4 4294967288) =
      some (markCell t4 4294967288) := by
    rw [show (1 : ℕ) = 0 + 1 from rfl, markLoopU32_exit _ _ _ _ _ (by norm_num)]
  refine ⟨613566749 + 613566758, markCell t4 4294967288,
    h1.trans (s2.trans (s3.trans (h4.trans (s5.trans s6)))), ?_⟩
  have h3 : markCell (markCell t1 4294967292) 3 3 = true := by
    rw [markCell_true_iff]
    exact Or.inl rfl
  rw [markCell_true_iff]
  exact Or.inr (m4 3 h3)

/-- Counterexample to C2: at the accepted bound `4294967293 = 2^32 - 3`
(whose computed limit is 65536) the two strategies do not produce identical
final tables, because the outer-parallel strategy need not produce a final
table at all.  In a racy execution where candidate 4's primality read
observes a stale `false` — realizable, since candidate 4 is the first
candidate of another thread's static chunk and its read races candidate 2's
very first write, which is exactly the cell 4 — candidate 4 runs the
marking chain `16, 20, 24, ...` whose wrapped values stay `≡ 0 (mod 4)`
and never leave the guard (the only exit values `2^32 - 2` and `2^32 - 1`
are `≡ 2` and `≡ 3 (mod 4)`): the execution diverges for every fuel (first
conjunct).  The sequential/inner-parallel strategy, by contrast, never
starts that chain: candidate 2's own marking loop terminates at this bound
and has already set cell 4 (second conjunct), so the sequential program
order skips candidate 4.  The divergence of the racy execution is caused
purely by the race, and "identical final tables on every bound" fails. -/
theorem c2_strategy_equivalence_counterexample :
    (∀ fuel, sieveOuterU32 fuel 4294967293 65536 (fun _ => false) 2
        (fun _ => false) = none) ∧
    (∃ fuel t, markLoopU32 fuel 4294967293 2 4 (fun _ => false) = some t ∧
        t 4 = true) := by
  constructor
  · intro fuel
    rw [sieveOuterU32, dif_pos (by norm_num), if_pos rfl]
    rw [show (2 * 2) % U32MOD = 4 from by rw [show U32MOD = 4294967296 from rfl]]
    cases h2 : markLoopU32 fuel 4294967293 2 4 (fun _ => false) with
    | none => rfl
    | some t2 =>
      show sieveOuterU32 fuel 4294967293 65536 (fun _ => false) 3 t2 = none
      rw [sieveOuterU32, dif_pos (by norm_num), if_pos rfl]
      rw [show (3 * 3) % U32MOD = 9 from by rw [show U32MOD = 4294967296 from rfl]]
      cases h3 : markLoopU32 fuel 4294967293 3 9 t2 with
      | none => rfl
      | some t3 =>
        show sieveOuterU32 fuel 4294967293 65536 (fun _ => false) 4 t3 = none
        rw [sieveOuterU32, dif_pos (by norm_num), if_pos rfl]
        rw [show (4 * 4) % U32MOD = 16 from by
          rw [show U32MOD = 4294967296 from rfl]]
        rw [markLoopU32_four_diverges fuel 16 t3 (by norm_num)
          (by rw [show U32MOD = 4294967296 from rfl]; norm_num)]
  · have hU : U32MOD = 4294967296 := rfl
    obtain ⟨t2, h1, m1⟩ := markLoopU32_run 4294967293 2 2147483644 6
      (markCell (fun _ => false) 4) 1 (by norm_num) (by rw [hU]; norm_num)
    rw [show 6 + 2147483644 * 2 = 4294967294 from by norm_num] at h1
    have s0 : markLoopU32 (2147483644 + 1 + 1) 4294967293 2 4 (fun _ => false) =
        markLoopU32 (2147483644 + 1) 4294967293 2 6
          (markCell (fun _ => false) 4) := by
      rw [markLoopU32_step _ _ _ _ _ (by norm_num)]
      rw [show (4 + 2) % U32MOD = 6 from by rw [hU]]
    have s1 : markLoopU32 1 4294967293 2 4294967294 t2 = some t2 := by
      rw [show (1 : ℕ) = 0 + 1 from rfl,
        markLoopU32_exit _ _ _ _ _ (by norm_num)]
    refine ⟨2147483644 + 1 + 1, t2, s0.trans (h1.trans s1), ?_⟩
    apply m1
    rw [markCell_true_iff]
    exact Or.inl rfl

/-- C2 as amended: in the overflow-free regime — every candidate at most
65535 (so `Number * Number` cannot overflow) and bound plus limit below
`2^32` (so no marking chain can wrap) — every racy execution of the
outer-parallel strategy whose primality reads are sound (an observed `true`
only comes from a completed write, hence from a composite cell; the
soundness argument is valid here precisely because no wrapped chain exists
that could write a prime cell) terminates and produces the same final
table as the sequential/inner-parallel strategy, namely `sieveSeq`; the
`sieve_openmp.c` variant also agrees whenever the limit covers `⌊√N⌋`.  In
the wraparound regime the equivalence fails (see the counterexample). -/
theorem c2_strategy_equivalence_amended :
    (∀ N limit fuel sees, limit ≤ 65535 → N + limit < U32MOD → N + 2 ≤ fuel →
      (∀ p, 2 ≤ p → p ≤ limit → sees p = true → ¬ Nat.Prime p) →
      sieveOuterU32 fuel N limit sees 2 (fun _ => false) =
        some (sieveSeq N limit) ∧
      sieveU32 fuel N limit 2 (fun _ => false) = some (sieveSeq N limit)) ∧
    (∀ N limit, Nat.sqrt N ≤ limit →
      ∀ x, sieveOpenmp N x = sieveSeq N limit x) := by
  constructor
  · intro N limit fuel sees hlim hN hf hsees
    constructor
    · rw [sieveOuterU32_complete N limit fuel sees hlim hN hf]
      congr 1
      funext x
      exact sieveOuterPar_eq_sieveSeq N limit sees hsees x
    · exact sieveU32_complete N limit fuel hlim hN hf
  · exact fun N limit hl x => sieveOpenmp_eq_sieveSeq N limit hl x

/-- Witness for C2 (amended) at bound 30, limit 5, fuel 32: one racy
observation function (all reads stale-`false`, so every candidate 2..5
marks) and the sequential table, plus the `sieve_openmp.c` table at index
25. -/
theorem c2_strategy_equivalence_amended_witness :
    (sieveOuterU32 32 30 5 (fun _ => false) 2 (fun _ => false) =
        some (sieveSeq 30 5) ∧
      sieveU32 32 30 5 2 (fun _ => false) = some (sieveSeq 30 5)) ∧
    sieveOpenmp 30 25 = sieveSeq 30 5 25 :=
  ⟨c2_strategy_equivalence_amended.1 30 5 32 (fun _ => false) (by norm_num)
      (by rw [show U32MOD = 4294967296 from rfl]; norm_num) (by norm_num)
      (fun p _ _ h => by simp at h),
    c2_strategy_equivalence_amended.2 30 5
      (Nat.lt_succ_iff.1 (Nat.sqrt_lt.2 (by norm_num))) 25⟩

/-- C3 (code over intent): at the clamped maximum bound
`MAX_SIEVE - 1 = 4294967294 = 2^32 - 2` the sieve does not terminate.  The
first candidate, 2, starts marking `4, 6, 8, ...`; every even `uint32_t`
value satisfies the guard `Composite <= MaxPrime` (the only larger
`uint32_t` value is the odd `4294967295`), and the wrapping increment
`2^32 - 2 ↦ 0` keeps the counter even, so the inner loop runs forever: for
every fuel the loop (first conjunct) and hence the whole sieve of the
`SIEVE_FAST`/sequential reading with the build's limit 65536 (second
conjunct) fail to finish. -/
theorem c3_clamped_max_diverges :
    (∀ fuel t, markLoopU32 fuel (MAX_SIEVE - 1) 2 4 t = none) ∧
    (∀ fuel, sieveU32 fuel (MAX_SIEVE - 1) 65536 2 (fun _ => false) = none) := by
  constructor
  · intro fuel t
    exact markLoopU32_two_diverges fuel 4 t (by norm_num)
      (by rw [show U32MOD = 4294967296 from rfl]; norm_num)
  · intro fuel
    rw [sieveU32, dif_pos (by norm_num)]
    rw [if_pos rfl]
    rw [show (2 * 2) % U32MOD = 4 from by rw [show U32MOD = 4294967296 from rfl]]
    rw [markLoopU32_two_diverges fuel 4 (fun _ => false) (by norm_num)
      (by rw [show U32MOD = 4294967296 from rfl]; norm_num)]

/-- C5: a bound argument that is a pure digit string with numeric value
above `MAX_SIEVE = 2^32 - 1` parses successfully — no error exit: the bound
is clamped to `MAX_SIEVE - 1 = 4294967294`, the warning is emitted on the
error stream, and the run proceeds into the sieve phase at the clamped
bound with the warning as its only error-stream output (second conjunct:
the whole run is exactly the sieve-and-output phase at bound
`MAX_SIEVE - 1` under the default configuration, whatever the fuel;
whether that phase ever finishes is the separate C3 question — at this
very bound it in fact never does). -/
theorem c5_clamp_and_warn :
    ∀ t : String, t.data ≠ [] → (∀ c ∈ t.data, c.isDigit) →
      MAX_SIEVE < digitsToVal t.data →
      ParseArguments [t] = .ok {} (MAX_SIEVE - 1) [clampWarnMsg t] ∧
      ∀ e fuel, mainRun [t] e fuel =
        mainSieveRun (MAX_SIEVE - 1) {} [clampWarnMsg t] e fuel := by
  intro t hne hd hv
  obtain ⟨c0, cs0, hdata⟩ : ∃ c0 cs0, t.data = c0 :: cs0 := by
    cases hd2 : t.data with
    | nil => exact absurd hd2 hne
    | cons a l => exact ⟨a, l, rfl⟩
  have hc0 : c0 ≠ '-' := by
    intro h
    have hdig := hd c0 (by rw [hdata]; simp)
    rw [h] at hdig
    exact absurd hdig (by decide)
  have hparse : ParseArguments [t] = .ok {} (MAX_SIEVE - 1) [clampWarnMsg t] := by
    unfold ParseArguments
    rw [show ([t] : List String).headD "" = t from rfl]
    rw [show ([t] : List String).length = 0 + 1 from rfl]
    rw [parseLoopF_nonoption t 0 0 {} [] t [] c0 cs0 hdata hc0]
    unfold finishMax
    dsimp only
    unfold StringToUMax
    rw [strtoumax_digits t hd]
    rw [if_pos (show MAX_SIEVE < digitsToVal t.data from hv)]
    dsimp only
    rw [if_neg (show ¬ERANGE = EINVAL from by decide)]
    rw [if_pos (Or.inl rfl)]
    rfl
  refine ⟨hparse, fun e fuel => ?_⟩
  rw [mainRun, hparse]

/-- Witness for C5 at the concrete overflowing bound `2^32`. -/
theorem c5_clamp_and_warn_witness :
    ParseArguments ["4294967296"] =
      .ok {} (MAX_SIEVE - 1) [clampWarnMsg "4294967296"] ∧
    mainRun ["4294967296"] "x" 0 =
      mainSieveRun (MAX_SIEVE - 1) {} [clampWarnMsg "4294967296"] "x" 0 :=
  ⟨(c5_clamp_and_warn "4294967296" (by decide) (by decide) (by decide)).1,
    (c5_clamp_and_warn "4294967296" (by decide) (by decide) (by decide)).2 "x" 0⟩

/-- Counterexample to C6: on the target platform (glibc) a malformed,
non-numeric `MAX` such as `"abc"` is not rejected: `strtoumax` converts it
to 0 without touching `errno`, so the program runs the (immediately
finished) sieve for bound 0, prints nothing, reports nothing, and exits
with success — not with the failure status and usage text the claim
demands. -/
theorem c6_malformed_max_counterexample :
    mainRun ["abc"] "x" 0 = .exits 0 "" [] := by
  have hs : sieveU32 0 0 (Nat.sqrt 0) 2 (fun _ => false) =
      some (fun _ => false) := by
    rw [Nat.sqrt_zero, sieveU32, dif_neg (by omega)]
  have h := mainRun_ok ["abc"] "x" {} 0 [] 0 (fun _ => false) (by decide) hs
    (by decide)
  rw [h, show specRender 10 "\t" (emitted (fun _ => false) 2 (0 - 1)) = ""
    from by decide]
  decide

/-- C6 as amended: a missing `MAX`, an unknown option and an option missing
its value are each rejected (diagnostic on the error stream, usage text,
exit status 1, empty standard output), and in general every parse failure
produces exactly that outcome; but a malformed non-numeric `MAX` is
accepted as bound 0 and the run exits 0 printing nothing, whatever the
fuel (the bound-0 sieve finishes at once). -/
theorem c6_error_handling_amended :
    (∀ (e : String) (fuel : ℕ), mainRun ["-q"] e fuel =
      .exits 1 "" ([missingMaxMsg] ++ [usageText])) ∧
    (∀ (e : String) (fuel : ℕ), mainRun ["-z", "10"] e fuel =
      .exits 1 "" ([getoptUnknownMsg "-z"] ++ [usageText])) ∧
    (∀ (e : String) (fuel : ℕ), mainRun ["-n"] e fuel =
      .exits 1 "" ([getoptMissingArgMsg "-n"] ++ [usageText])) ∧
    (∀ (args : List String) (e : String) (errs : List String) (fuel : ℕ),
      ParseArguments args = .fail errs →
      mainRun args e fuel = .exits 1 "" (errs ++ [usageText])) ∧
    (∀ (e : String) (fuel : ℕ), mainRun ["abc"] e fuel = .exits 0 "" []) := by
  refine ⟨fun e fuel => mainRun_fail _ _ _ _ (by decide),
    fun e fuel => mainRun_fail _ _ _ _ (by decide),
    fun e fuel => mainRun_fail _ _ _ _ (by decide),
    fun args e errs fuel h => mainRun_fail args e errs fuel h,
    fun e fuel => ?_⟩
  have hs : sieveU32 fuel 0 (Nat.sqrt 0) 2 (fun _ => false) =
      some (fun _ => false) := by
    rw [Nat.sqrt_zero, sieveU32, dif_neg (by omega)]
  have h := mainRun_ok ["abc"] e {} 0 [] fuel (fun _ => false) (by decide) hs
    (by decide)
  rw [h, show specRender 10 "\t" (emitted (fun _ => false) 2 (0 - 1)) = ""
    from by decide]
  simp

/-- Witness for C6 (amended): `-h` makes the parse fail with no extra
diagnostic, and the run shows usage and exits 1. -/
theorem c6_error_handling_amended_witness :
    mainRun ["-h", "9"] "x" 0 = .exits 1 "" ([] ++ [usageText]) :=
  c6_error_handling_amended.2.2.2.1 ["-h", "9"] "x" [] 0 (by decide)

/-- C7: any `-n` value whose `atoi` conversion is below 1 is rejected
during parsing, before any sieve work: the parse fails with the diagnostic
(first conjunct, for every parser state), and the whole run prints the
diagnostic and the usage text on the error stream, writes nothing to
standard output and exits 1 (second conjunct). -/
theorem c7_thread_count_rejected :
    (∀ (s : String) (rest : List String) (arg1 : String) (fuel errno : ℕ)
        (cfg : Config) (errs : List String), atoi s < 1 →
      parseLoopF arg1 (fuel + 1) errno cfg errs ("-n" :: s :: rest) =
        .fail (errs ++ [numThreadsMsg])) ∧
    (∀ (s : String) (rest : List String) (e : String) (fuel : ℕ),
      atoi s < 1 →
      mainRun ("-n" :: s :: rest) e fuel =
        .exits 1 "" ([numThreadsMsg] ++ [usageText])) := by
  have h1 : ∀ (s : String) (rest : List String) (arg1 : String)
      (fuel errno : ℕ) (cfg : Config) (errs : List String), atoi s < 1 →
      parseLoopF arg1 (fuel + 1) errno cfg errs ("-n" :: s :: rest) =
        .fail (errs ++ [numThreadsMsg]) := by
    intro s rest arg1 fuel errno cfg errs hlt
    calc parseLoopF arg1 (fuel + 1) errno cfg errs ("-n" :: s :: rest)
        = if atoi s < 1 then ParseOut.fail (errs ++ [numThreadsMsg])
          else parseLoopF arg1 fuel errno
            { cfg with NumThreads := some (atoi s).toNat } errs rest := rfl
      _ = ParseOut.fail (errs ++ [numThreadsMsg]) := if_pos hlt
  refine ⟨h1, fun s rest e fuel hlt => ?_⟩
  apply mainRun_fail
  unfold ParseArguments
  exact h1 s rest _ _ 0 {} [] hlt

/-- Witness for C7 at `-n 0`. -/
theorem c7_thread_count_rejected_witness :
    mainRun ["-n", "0"] "x" 0 = .exits 1 "" ([numThreadsMsg] ++ [usageText]) :=
  c7_thread_count_rejected.2 "0" [] "x" 0 (by decide)

/-- Counterexample to C8: at bound 20 with 5 primes per line and separator
`", "` the program's second output line is `13, 17, 19, ` — every prime of
a partial trailing line, including the last one, is followed by the
separator — not the claimed `13, 17, 19`. -/
theorem c8_output_counterexample :
    PrintPrimes (sieveSeq 20 (Nat.sqrt 20)) 20 5 ", " =
      some "2, 3, 5, 7, 11\n13, 17, 19, \n" ∧
    "2, 3, 5, 7, 11\n13, 17, 19, \n" ≠ "2, 3, 5, 7, 11\n13, 17, 19\n" := by
  constructor
  · rw [PrintPrimes_sieve 20 5 ", " (by norm_num)]
    decide
  · decide

/-- C8 as amended: for every bound and every positive per-line count the
output stage prints exactly the primes up to the bound, ascending, wrapped
after the configured count, with the separator between the entries of a
full line and after every entry of a partial trailing line, each line
(including a partial last one) terminated by a newline — so whenever at
least one prime is printed the output ends with a newline. -/
theorem c8_output_amended :
    (∀ (N L : ℕ) (sep : String), 0 < L →
      PrintPrimes (sieveSeq N (Nat.sqrt N)) N L sep =
        some (specRender L sep (primesUpTo N))) ∧
    (∀ (L : ℕ) (sep : String) (nums : List ℕ), nums ≠ [] →
      ∃ s, specRender L sep nums = s ++ "\n") :=
  ⟨fun N L sep hL => PrintPrimes_sieve N L sep hL,
    fun L sep nums hne => specRender_endsWith L sep nums hne⟩

/-- Witness for C8 (amended) at bound 20, five per line, separator `", "`. -/
theorem c8_output_amended_witness :
    PrintPrimes (sieveSeq 20 (Nat.sqrt 20)) 20 5 ", " =
      some (specRender 5 ", " (primesUpTo 20)) ∧
    ∃ s, specRender 5 ", " (primesUpTo 20) = s ++ "\n" :=
  ⟨c8_output_amended.1 20 5 ", " (by norm_num),
    c8_output_amended.2 5 ", " (primesUpTo 20) (by decide)⟩

/-- Counterexample to C9: with `-t` the elapsed-time line is written with
`printf`, i.e. to standard output, ahead of the primes: at bound 2 (whose
sieve finishes at once, since `⌊√2⌋ = 1` admits no candidate) standard
output is the timing line followed by `2\t\n`, which differs from the pure
prime results `2\t\n` that `PrintPrimes` produces. -/
theorem c9_timing_on_stdout_counterexample :
    mainRun ["-t", "2"] "0.00000" 0 =
      .exits 0 ("Sieve took 0.00000 seconds.\n" ++ "2\t\n") [] ∧
    PrintPrimes (sieveSeq 2 (Nat.sqrt 2)) 2 10 "\t" = some "2\t\n" ∧
    ("Sieve took 0.00000 seconds.\n" ++ "2\t\n") ≠ "2\t\n" := by
  refine ⟨?_, ?_, by decide⟩
  · have h21 : Nat.sqrt 2 = 1 :=
      le_antisymm (Nat.lt_succ_iff.1 (Nat.sqrt_lt.2 (by norm_num)))
        (Nat.le_sqrt.2 (by norm_num))
    have hs : sieveU32 0 2 (Nat.sqrt 2) 2 (fun _ => false) =
        some (fun _ => false) := by
      rw [h21, sieveU32, dif_neg (by omega)]
    have h := mainRun_ok ["-t", "2"] "0.00000" { ShouldPrintTime := true } 2 []
      0 (fun _ => false) (by decide) hs (by decide)
    rw [h, show specRender 10 "\t" (emitted (fun _ => false) 2 (2 - 1)) =
      "2\t\n" from by decide]
    decide
  · rw [PrintPrimes_sieve 2 10 "\t" (by norm_num)]
    decide

/-- C9 as amended: on every successful run whose sieve phase finishes with
table `t`, standard output consists of the `-t` timing line (when and only
when `-t` was given — timing goes to standard output, not the error
stream) followed by the rendering of the still-unmarked entries of the
actually computed table (when printing is enabled), and the error stream
carries exactly the parse warnings; on every failed parse standard output
is empty, the error stream carries the diagnostics and the usage text, and
the exit status is 1. -/
theorem c9_streams_amended :
    (∀ (args : List String) (e : String) (cfg : Config) (mp : ℕ)
        (errs : List String) (fuel : ℕ) (t : ℕ → Bool),
      ParseArguments args = .ok cfg mp errs →
      sieveU32 fuel mp (Nat.sqrt mp) 2 (fun _ => false) = some t →
      0 < cfg.PrimesPerLine →
      mainRun args e fuel = .exits 0
        ((if cfg.ShouldPrintTime then timingLine e else "") ++
          (if cfg.ShouldPrintPrimes then
            specRender cfg.PrimesPerLine cfg.Separator (emitted t 2 (mp - 1))
          else ""))
        errs) ∧
    (∀ (args : List String) (e : String) (errs : List String) (fuel : ℕ),
      ParseArguments args = .fail errs →
      mainRun args e fuel = .exits 1 "" (errs ++ [usageText])) :=
  ⟨mainRun_ok, mainRun_fail⟩

/-- Witness for C9 (amended): quiet run at bound 7 with fuel 9, whose sieve
phase finishes with the sequential table. -/
theorem c9_streams_amended_witness :
    mainRun ["-q", "7"] "x" 9 = .exits 0
      ((if ({ ShouldPrintPrimes := false } : Config).ShouldPrintTime then
          timingLine "x" else "") ++
        (if ({ ShouldPrintPrimes := false } : Config).ShouldPrintPrimes then
          specRender 10 "\t"
            (emitted (sieveSeq 7 (Nat.sqrt 7)) 2 (7 - 1))
        else "")) [] :=
  c9_streams_amended.1 ["-q", "7"] "x" { ShouldPrintPrimes := false } 7 [] 9
    (sieveSeq 7 (Nat.sqrt 7)) (by decide)
    (sieveU32_complete 7 (Nat.sqrt 7) 9
      (le_trans (Nat.sqrt_le_self 7) (by norm_num))
      (by
        have h7 := Nat.sqrt_le_self 7
        rw [show U32MOD = 4294967296 from rfl]
        omega)
      (by norm_num))
    (by decide)

/-- C10: the parser accepts `-l 0` without any rejection or warning
(`StringToUMax` returns 0 with `errno` untouched), and every printing run
at a bound `≥ 2` with per-line count 0 reaches the modulo-by-zero
`(PrimeInLine + 1) % PrimesPerLine` in `PrintPrimes` — undefined behaviour,
modelled as `none`. -/
theorem c10_line_zero_mod_zero :
    ParseArguments ["-l", "0", "20"] = .ok { PrimesPerLine := 0 } 20 [] ∧
    ∀ (N : ℕ) (sep : String), 2 ≤ N →
      PrintPrimes (sieveSeq N (Nat.sqrt N)) N 0 sep = none := by
  refine ⟨by decide, fun N sep hN => ?_⟩
  exact PrintPrimes_mod_zero _ N sep
    ⟨2, le_refl 2, hN, sieveSeq_prime_false N (Nat.sqrt N) 2 Nat.prime_two⟩

/-- Witness for C10 at bound 20. -/
theorem c10_line_zero_mod_zero_witness :
    PrintPrimes (sieveSeq 20 (Nat.sqrt 20)) 20 0 ", " = none :=
  c10_line_zero_mod_zero.2 20 ", " (by norm_num)

end Sieve
